import Mathlib

/-!
Verification development for the google-docs-manager repository.

The repository contains a Markdown <-> Google-Docs translation engine in two
copies: the superseding one in the `conversion` / `document` packages
(internal/conversion, internal/document) and a legacy copy in the `main`
package under src/.  This file gives a shallow embedding of both copies and
of the structure extractor and color parser, and proves the testable
properties stated for them.

Modelling conventions:
* Go strings are modelled as `List Char` (`Str`), one entry per Unicode code
  point ("rune").  Go's `len` (byte length) is modelled by `byteLen`, which
  sums the UTF-8 encoded size of each code point.
* The Go regexp calls (leftmost-first matching of
  `\*\*([^*]+)\*\*|__([^_]+)__` and `\*([^*]+)\*|_([^_]+)_`) are modelled by
  the scanner `scan`: both regexes consist of a run of `n` delimiter
  characters, a maximal nonempty run of non-delimiter characters, and `n`
  closing delimiters, with the asterisk alternative tried before the
  underscore alternative at every position, scanning left to right over the
  text with matches never overlapping.
* `fmt.Sscanf` verbs are modelled by dedicated scanners (`scanHex2`,
  `digitRunVal`) that leave not-reached output variables at zero, as Sscanf
  does.
-/

namespace GDM

/-- Characters of a Go string, one entry per Unicode code point (rune). -/
abbrev Str := List Char

/-- Whitespace predicate of strings.TrimSpace (unicode.IsSpace) on the ASCII
range: space, tab, newline, vertical tab, form feed, carriage return. -/
def isSpace (c : Char) : Bool :=
  c.toNat == 32 || (9 ≤ c.toNat && c.toNat ≤ 13)

/-- Left half of strings.TrimSpace. -/
def trimLeft (s : Str) : Str := s.dropWhile isSpace

/-- Right half of strings.TrimSpace. -/
def trimRight (s : Str) : Str := (s.reverse.dropWhile isSpace).reverse

/-- Models strings.TrimSpace. -/
def trimSpace (s : Str) : Str := trimRight (trimLeft s)

/-- Number of bytes of the UTF-8 encoding of one code point; used to model
Go's byte-based `len` and byte-indexed slicing. -/
def utf8Len (c : Char) : Nat :=
  if c.toNat ≤ 0x7F then 1
  else if c.toNat ≤ 0x7FF then 2
  else if c.toNat ≤ 0xFFFF then 3
  else 4

/-- Byte length of a Go string, Go's `len(s)`. -/
def byteLen (s : Str) : Nat := (s.map utf8Len).sum

/-- Models strings.Split for a one-character separator. -/
def splitOnChar (sep : Char) : Str → List Str
  | [] => [[]]
  | c :: rest =>
    if c = sep then
      [] :: splitOnChar sep rest
    else
      match splitOnChar sep rest with
      | [] => [[c]]
      | h :: t => (c :: h) :: t

end GDM

namespace GDM.docs

/-- Models docs.TextRun together with the TextStyle fields the repository
reads.  A nil TextStyle in Go behaves exactly like the default field values
(no bold, no italic, no link), so the nil case is folded into the defaults. -/
structure TextRun where
  content : GDM.Str
  bold : Bool := false
  italic : Bool := false
  link : Option GDM.Str := none
deriving DecidableEq

/-- Models docs.Paragraph: the text runs of its elements and the
NamedStyleType of its ParagraphStyle (empty string when absent or nil). -/
structure Paragraph where
  elements : List TextRun
  namedStyleType : String := ""
deriving DecidableEq

/-- Models docs.TableCell: the paragraphs of its content elements. -/
structure TableCell where
  content : List Paragraph
deriving DecidableEq

/-- Models docs.TableRow. -/
structure TableRow where
  tableCells : List TableCell
deriving DecidableEq

/-- Models docs.Table. -/
structure Table where
  tableRows : List TableRow
deriving DecidableEq

/-- Models docs.StructuralElement: exactly one of `paragraph` and `table` is
set in the cases the repository handles. -/
structure StructuralElement where
  startIndex : Int
  endIndex : Int
  paragraph : Option Paragraph := none
  table : Option Table := none
deriving DecidableEq

/-- Models docs.Document: its title and the content of its body. -/
structure Document where
  title : GDM.Str
  body : List StructuralElement
deriving DecidableEq

/-- The three integers scanned by ParseColor.  The Go code stores
`Red/255.0`, `Green/255.0`, `Blue/255.0` in docs.RgbColor; the scanned
integers carry the same information, so the embedding keeps them. -/
structure RgbColor where
  Red : Nat
  Green : Nat
  Blue : Nat
deriving DecidableEq

/-- Which TextStyle field an UpdateTextStyle request sets (its Fields tag). -/
inductive StyleField where
  | bold
  | italic
deriving DecidableEq

/-- Models the docs.Request variants the translation engine emits. -/
inductive Request where
  | insertText (index : Int) (text : GDM.Str)
  | updateParagraphStyle (startIndex endIndex : Int) (namedStyleType : String)
  | updateTextStyle (startIndex endIndex : Int) (field : StyleField)
deriving DecidableEq

end GDM.docs

namespace GDM

/-- One attempt of a regex alternative `d^n([^d]+)d^n` at the front of `s`:
opening run of `n` copies of `d`, a maximal nonempty run of characters other
than `d` (the capture group), and `n` closing copies of `d`.  Returns the
captured content and the remainder after the closing delimiters.  Because
the capture group can never contain `d`, the greedy maximal run is the only
candidate, so this agrees with the backtracking regex semantics. -/
def matchAt (n : Nat) (d : Char) (s : Str) : Option (Str × Str) :=
  if s.take n = List.replicate n d then
    let r0 := s.drop n
    let c := r0.takeWhile (fun x => x != d)
    if c ≠ [] ∧ (r0.drop c.length).take n = List.replicate n d then
      some (c, r0.drop (c.length + n))
    else
      none
  else
    none

/-- Alternation of the two delimiters, asterisk form first, exactly as in
the source regexes (leftmost-first semantics tries alternatives in order). -/
def tryMatch (n : Nat) (s : Str) : Option (Str × Str) :=
  (matchAt n '*' s).orElse (fun _ => matchAt n '_' s)

/-- Fuel-indexed scanner behind `scan`.  At each position it attempts a
match; on success it records (rune position, content), skips the whole
match, and goes on scanning after it; otherwise it moves one character
right.  Each step consumes at least one character of `s` and exactly one
unit of fuel, so with initial fuel `s.length` the fuel never runs out
before `s` does. -/
def scanF (n : Nat) : Nat → Nat → Str → List (Nat × Str) × Str
  | 0, _, s => ([], s)
  | fuel + 1, pos, s =>
    match tryMatch n s with
    | some (c, r) =>
      let t := scanF n fuel (pos + (n + c.length + n)) r
      ((pos, c) :: t.1, c ++ t.2)
    | none =>
      match s with
      | [] => ([], [])
      | ch :: rest =>
        let t := scanF n fuel (pos + 1) rest
        (t.1, ch :: t.2)

/-- Models FindAllStringSubmatchIndex plus ReplaceAllString "$1$2" for the
two inline-markup regexes: the list of matches of `d^n([^d]+)d^n`
(`d ∈ {*, _}`, asterisk preferred) as (rune start position, content) pairs,
in left-to-right order, together with the text with all matched markers
stripped.  `pos` is the rune position of the start of `s` in the scanned
line. -/
def scan (n : Nat) (pos : Nat) (s : Str) : List (Nat × Str) × Str :=
  scanF n s.length pos s

end GDM

namespace GDM.conversion

/-- Models conversion.GetParagraphText: concatenate the text run contents and
trim surrounding whitespace. -/
def GetParagraphText (p : docs.Paragraph) : Str :=
  trimSpace ((p.elements.map docs.TextRun.content).flatten)

/-- Loop body of formatParagraphAsMarkdown for one text run: wrap in bold
markers if bold, then in italic markers, then as a link, each wrap trimming
the text it wraps, exactly in the order of the source. -/
def renderRun (r : docs.TextRun) : Str :=
  let c1 := if r.bold then '*' :: '*' :: trimSpace r.content ++ ('*' :: '*' :: []) else r.content
  let c2 := if r.italic then '*' :: trimSpace c1 ++ ('*' :: []) else c1
  match r.link with
  | some url => '[' :: trimSpace c2 ++ (']' :: '(' :: []) ++ url ++ (')' :: [])
  | none => c2

/-- The `text` builder of formatParagraphAsMarkdown: all runs rendered and
concatenated, before the final emptiness check. -/
def paragraphContent (p : docs.Paragraph) : Str :=
  (p.elements.map renderRun).flatten

/-- Models conversion.formatParagraphAsMarkdown. -/
def formatParagraphAsMarkdown (p : docs.Paragraph) : Str :=
  let result := paragraphContent p
  if trimSpace result ≠ [] then result ++ ('\n' :: '\n' :: []) else []

/-- Models conversion.getTableCellText. -/
def getTableCellText (cell : docs.TableCell) : Str :=
  trimSpace ((cell.content.map GetParagraphText).flatten)

/-- One table row as emitted by tableToMarkdown, without the trailing
newline: a pipe, then " cell |" per cell. -/
def rowLine (row : docs.TableRow) : Str :=
  '|' :: (row.tableCells.map (fun cell => ' ' :: getTableCellText cell ++ (' ' :: '|' :: []))).flatten

/-- The header separator line tableToMarkdown writes after row 0, without
the trailing newline: a pipe, then " --- |" per cell of row 0. -/
def sepLine (row : docs.TableRow) : Str :=
  '|' :: (row.tableCells.map (fun _ => (" --- |").data)).flatten

/-- Models conversion.tableToMarkdown: every row becomes one line, the
separator is written immediately after row 0, and a final blank line ends
the table. -/
def tableToMarkdown (t : docs.Table) : Str :=
  (match t.tableRows with
   | [] => []
   | r0 :: rest =>
     rowLine r0 ++ '\n' :: sepLine r0 ++ '\n' :: (rest.map (fun r => rowLine r ++ ('\n' :: []))).flatten)
  ++ ('\n' :: [])

/-- The six explicit HEADING cases of the DocsToMarkdown switch. -/
def headingLevelOf (st : String) : Option Nat :=
  if st = "HEADING_1" then some 1
  else if st = "HEADING_2" then some 2
  else if st = "HEADING_3" then some 3
  else if st = "HEADING_4" then some 4
  else if st = "HEADING_5" then some 5
  else if st = "HEADING_6" then some 6
  else none

/-- Paragraph case of DocsToMarkdown: a recognized heading style renders as
hash marks plus the plain paragraph text, everything else goes through
formatParagraphAsMarkdown. -/
def renderParagraph (p : docs.Paragraph) : Str :=
  match (if p.namedStyleType ≠ "" then headingLevelOf p.namedStyleType else none) with
  | some k => List.replicate k '#' ++ ' ' :: GetParagraphText p ++ ('\n' :: '\n' :: [])
  | none => formatParagraphAsMarkdown p

/-- Models conversion.DocsToMarkdown: the title as a level-1 heading, then
every body element in order. -/
def DocsToMarkdown (doc : docs.Document) : Str :=
  ('#' :: ' ' :: doc.title ++ ('\n' :: '\n' :: [])) ++
  (doc.body.map (fun el =>
    match el.paragraph with
    | some p => renderParagraph p
    | none =>
      match el.table with
      | some t => tableToMarkdown t
      | none => [])).flatten

/-- The per-match loop of conversion.parseInlineFormatting: each match gets
a style request whose start is its rune position minus the rune length of
the markers removed by the earlier matches of the same stage (`offset`),
and whose width is the content's rune length. -/
def styleRequests (n : Nat) (f : docs.StyleField) (startIndex : Int) :
    List (Nat × Str) → Int → List docs.Request
  | [], _ => []
  | (pos, c) :: rest, offset =>
    let contentRuneCount : Int := (c.length : Int)
    let matchRuneCount : Int := ((n + c.length + n : Nat) : Int)
    let markerLength : Int := matchRuneCount - contentRuneCount
    let adjustedStart : Int := (pos : Int) - offset
    docs.Request.updateTextStyle (startIndex + adjustedStart)
        (startIndex + adjustedStart + contentRuneCount) f
      :: styleRequests n f startIndex rest (offset + markerLength)

/-- Models conversion.parseInlineFormatting: a bold stage over the line,
then an italic stage over the bold-stripped line, each stage emitting style
requests in post-strip coordinates; returns the fully stripped text and the
requests, bold stage first. -/
def parseInlineFormatting (text : Str) (startIndex : Int) : Str × List docs.Request :=
  let bold := scan 2 0 text
  let boldReqs := styleRequests 2 docs.StyleField.bold startIndex bold.1 0
  let ital := scan 1 0 bold.2
  let italReqs := styleRequests 1 docs.StyleField.italic startIndex ital.1 0
  (ital.2, boldReqs ++ italReqs)

/-- Heading style tag, Sprintf("HEADING_%d", level). -/
def headingStyle (level : Nat) : String :=
  "HEADING_" ++ toString level

/-- The line loop of conversion.MarkdownToDocsRequests: trim the line; a
blank line inserts a newline; a line starting with a hash inserts the
trimmed heading text and applies HEADING_<level>; any other line goes
through the inline-formatting pass.  All lengths are rune counts. -/
def compileLines : List Str → Int → List docs.Request
  | [], _ => []
  | l :: ls, cursor =>
    let line := trimSpace l
    if line = [] then
      docs.Request.insertText cursor ('\n' :: []) :: compileLines ls (cursor + 1)
    else if line.take 1 = ('#' :: []) then
      let level := (line.takeWhile (fun c => c == '#')).length
      let text := trimSpace (line.drop level)
      docs.Request.insertText cursor (text ++ ('\n' :: []))
        :: docs.Request.updateParagraphStyle cursor (cursor + (text.length : Int) + 1)
             (headingStyle level)
        :: compileLines ls (cursor + (text.length : Int) + 1)
    else
      let pr := parseInlineFormatting line cursor
      docs.Request.insertText cursor (pr.1 ++ ('\n' :: []))
        :: (pr.2 ++ compileLines ls (cursor + (pr.1.length : Int) + 1))

/-- Models conversion.MarkdownToDocsRequests. -/
def MarkdownToDocsRequests (markdown : Str) (startIndex : Int) : List docs.Request :=
  compileLines (splitOnChar '\n' markdown) startIndex

/-- Value of one hex digit, none for a non-hex character. -/
def hexVal (c : Char) : Option Nat :=
  if '0' ≤ c ∧ c ≤ '9' then some (c.toNat - 48)
  else if 'a' ≤ c ∧ c ≤ 'f' then some (c.toNat - 87)
  else if 'A' ≤ c ∧ c ≤ 'F' then some (c.toNat - 55)
  else none

/-- One %02x verb of fmt.Sscanf: skip leading whitespace, then consume one
or two hex digits (at most two, at least one). -/
def scanHex2 (s : Str) : Option (Nat × Str) :=
  match s.dropWhile isSpace with
  | [] => none
  | c0 :: rest =>
    match hexVal c0 with
    | none => none
    | some v0 =>
      match rest with
      | [] => some (v0, [])
      | c1 :: rest2 =>
        match hexVal c1 with
        | some v1 => some (16 * v0 + v1, rest2)
        | none => some (v0, rest)

/-- Sscanf(s, "%02x%02x%02x", &r, &g, &b): scanning stops at the first verb
that fails and the output variables not reached keep their zero values. -/
def sscanfHex3 (s : Str) : Nat × Nat × Nat :=
  match scanHex2 s with
  | none => (0, 0, 0)
  | some (r, s1) =>
    match scanHex2 s1 with
    | none => (r, 0, 0)
    | some (g, s2) =>
      match scanHex2 s2 with
      | none => (r, g, 0)
      | some (b, _) => (r, g, b)

/-- Models conversion.ParseColor: strip at most one leading hash
(strings.TrimPrefix), reject unless the remaining byte length is exactly 6,
otherwise scan three hex components, components not reached staying zero. -/
def ParseColor (hexColor : Str) : Option docs.RgbColor :=
  let stripped := if hexColor.take 1 = ('#' :: []) then hexColor.drop 1 else hexColor
  if byteLen stripped = 6 then
    some ⟨(sscanfHex3 stripped).1, (sscanfHex3 stripped).2.1, (sscanfHex3 stripped).2.2⟩
  else
    none

end GDM.conversion

namespace GDM.document

/-- Models document.Section, field order as in the source. -/
structure Section where
  EndIndex : Int
  Level : Nat
  StartIndex : Int
  Title : Str
deriving DecidableEq

/-- Value scanned by Sscanf(st, "HEADING_%d", &level) after the prefix has
been checked: the leading digit run after the first 8 characters, 0 when
there are no digits there (the variable keeps its zero value). -/
def digitRunVal (s : Str) : Nat :=
  (s.takeWhile Char.isDigit).foldl (fun acc c => 10 * acc + (c.toNat - 48)) 0

/-- Models document.GetStructure: one Section per paragraph whose named
style starts with "HEADING_", in document order. -/
def GetStructure (doc : docs.Document) : List Section :=
  (doc.body.map (fun el =>
    match el.paragraph with
    | some p =>
      if p.namedStyleType ≠ "" ∧ p.namedStyleType.data.take 8 = ("HEADING_").data then
        [{ EndIndex := el.endIndex
           Level := digitRunVal (p.namedStyleType.data.drop 8)
           StartIndex := el.startIndex
           Title := conversion.GetParagraphText p }]
      else []
    | none => [])).flatten

/-- Models strings.EqualFold on the ASCII range: compare after lower-casing
every character. -/
def eqFold (a b : Str) : Bool :=
  a.map Char.toLower == b.map Char.toLower

/-- The search loop of document.FindSection. -/
def findLoop (name : Str) : List Section → Option Section
  | [] => none
  | s :: rest => if eqFold s.Title name then some s else findLoop name rest

/-- Models document.FindSection. -/
def FindSection (doc : docs.Document) (sectionName : Str) : Option Section :=
  findLoop sectionName (GetStructure doc)

end GDM.document

namespace GDM.legacy

/-- Models the legacy parseInlineFormatting in src/helpers.go: the bold
stage emits one request per match whose range is the byte range of the full
match (markers included) in the original line; the italic stage only strips
markers and emits nothing. -/
def parseInlineFormatting (text : Str) (startIndex : Int) : Str × List docs.Request :=
  let bold := scan 2 0 text
  let reqs := bold.1.map (fun m =>
    let bstart : Int := (byteLen (text.take m.1) : Int)
    let bend : Int := bstart + ((2 + byteLen m.2 + 2 : Nat) : Int)
    docs.Request.updateTextStyle (startIndex + bstart) (startIndex + bend) docs.StyleField.bold)
  let ital := scan 1 0 bold.2
  (ital.2, reqs)

/-- The line loop of the legacy markdownToDocsRequests in src/helpers.go:
same shape as the conversion compiler, but every length is a byte length. -/
def compileLines : List Str → Int → List docs.Request
  | [], _ => []
  | l :: ls, cursor =>
    let line := trimSpace l
    if line = [] then
      docs.Request.insertText cursor ('\n' :: []) :: compileLines ls (cursor + 1)
    else if line.take 1 = ('#' :: []) then
      let level := (line.takeWhile (fun c => c == '#')).length
      let text := trimSpace (line.drop level)
      docs.Request.insertText cursor (text ++ ('\n' :: []))
        :: docs.Request.updateParagraphStyle cursor (cursor + (byteLen text : Int) + 1)
             (conversion.headingStyle level)
        :: compileLines ls (cursor + (byteLen text : Int) + 1)
    else
      let pr := parseInlineFormatting line cursor
      docs.Request.insertText cursor (pr.1 ++ ('\n' :: []))
        :: (pr.2 ++ compileLines ls (cursor + (byteLen pr.1 : Int) + 1))

/-- Models the legacy markdownToDocsRequests in src/helpers.go. -/
def markdownToDocsRequests (markdown : Str) (startIndex : Int) : List docs.Request :=
  compileLines (splitOnChar '\n' markdown) startIndex

end GDM.legacy

namespace GDM

/-- Named style tag of an abstract plain-document entry: empty for a normal
paragraph, HEADING_<n> for a heading of level n. -/
def styleName : Option Nat → String
  | none => ""
  | some n => "HEADING_" ++ toString n

/-- Structured document holding one single-run unstyled paragraph per list
entry (text, optional heading level): the document shape quantified over by
the round-trip property. -/
def mkPlainDoc (T : Str) (ps : List (Str × Option Nat)) : docs.Document :=
  { title := T
    body := ps.map (fun p =>
      { startIndex := 0, endIndex := 0
        paragraph := some { elements := [{ content := p.1 }], namedStyleType := styleName p.2 }
        table := none }) }

/-- Side conditions under which a paragraph text survives the markdown round
trip verbatim: already trimmed, nonempty, no line break, no inline markup
marker characters, and not starting with a hash. -/
@[reducible] def goodText (t : Str) : Prop :=
  trimSpace t = t ∧ t ≠ [] ∧ '\n' ∉ t ∧ '*' ∉ t ∧ '_' ∉ t ∧ t.take 1 ≠ ('#' :: [])

/-- Expected request sequence when the rendering of a plain document is
compiled back: for each entry, insert its text plus newline, apply its
heading style over exactly the inserted range if it has one, then insert
the blank separator line; one final newline insertion closes the batch. -/
def roundTripRequests : List (Str × Option Nat) → Int → List docs.Request
  | [], c => [docs.Request.insertText c ('\n' :: [])]
  | (t, lvl) :: rest, c =>
    docs.Request.insertText c (t ++ ('\n' :: []))
      :: ((match lvl with
           | some n => [docs.Request.updateParagraphStyle c (c + (t.length : Int) + 1)
                          ("HEADING_" ++ toString n)]
           | none => []) ++
          (docs.Request.insertText (c + (t.length : Int) + 1) ('\n' :: [])
            :: roundTripRequests rest (c + (t.length : Int) + 2)))

/-- Markdown lines produced for the entries of a plain document (one content
line and one blank line per entry, and the final empty line the split of a
text ending in a newline produces). -/
def linesOf : List (Str × Option Nat) → List Str
  | [] => [[]]
  | (t, lvl) :: rest =>
    (match lvl with
     | some n => List.replicate n '#' ++ ' ' :: t
     | none => t) :: [] :: linesOf rest

/-- Whether a request applies a paragraph style. -/
def isParagraphStyleReq : docs.Request → Bool
  | docs.Request.updateParagraphStyle _ _ _ => true
  | _ => false

/-- Document with a level-1 heading "Intro" and a level-2 heading
"intro details": the section-lookup example. -/
def introDoc : docs.Document :=
  { title := "Doc".data
    body :=
      [ { startIndex := 1, endIndex := 8
          paragraph := some { elements := [{ content := "Intro".data }],
                              namedStyleType := "HEADING_1" } }
      , { startIndex := 8, endIndex := 22
          paragraph := some { elements := [{ content := "intro details".data }],
                              namedStyleType := "HEADING_2" } } ] }

/-- Paragraph with a normal run followed by a whitespace-only run. -/
def exPara2 : docs.Paragraph := { elements := [{ content := "a".data }, { content := "  ".data }] }

/-- The same paragraph with the whitespace-only run removed. -/
def exPara1 : docs.Paragraph := { elements := [{ content := "a".data }] }

/-- Table cell holding one plain paragraph. -/
def mkCell (s : String) : docs.TableCell :=
  { content := [{ elements := [{ content := s.data }] }] }

/-- The 2 by 2 table of the table-render-shape example. -/
def exTable : docs.Table :=
  { tableRows := [ { tableCells := [mkCell "a", mkCell "b"] }
                 , { tableCells := [mkCell "c", mkCell "d"] } ] }

end GDM

namespace GDM

/-- A markdown line rendered for one entry of a plain document. -/
def renderEntry : Str × Option Nat → Str :=
  fun p =>
    match p.2 with
    | some n => List.replicate n '#' ++ ' ' :: p.1 ++ ('\n' :: '\n' :: [])
    | none => p.1 ++ ('\n' :: '\n' :: [])

/-- The content line of one entry of a plain document, without the blank
line that follows it. -/
def blockLine : Str × Option Nat → Str :=
  fun p =>
    match p.2 with
    | some n => List.replicate n '#' ++ ' ' :: p.1
    | none => p.1

theorem dropWhile_head_not {p : Char → Bool} {l : Str} {c : Char}
    (h : (l.dropWhile p).head? = some c) : p c = false := by
  induction l with
  | nil => simp [List.dropWhile] at h
  | cons a rest ih =>
    by_cases ha : p a = true
    · rw [List.dropWhile_cons, if_pos ha] at h
      exact ih h
    · rw [List.dropWhile_cons, if_neg ha] at h
      simp only [List.head?_cons, Option.some.injEq] at h
      subst h
      simpa using ha

theorem dropWhile_eq_self_head {p : Char → Bool} {l : Str} {c : Char}
    (h : List.dropWhile p l = l) (hc : l.head? = some c) : p c = false := by
  cases l with
  | nil => simp at hc
  | cons a rest =>
    simp only [List.head?_cons, Option.some.injEq] at hc
    by_cases hp : p a = true
    · rw [List.dropWhile_cons, if_pos hp] at h
      have hlen := congrArg List.length h
      have hle : (List.dropWhile p rest).length ≤ rest.length :=
        (List.dropWhile_suffix p).sublist.length_le
      simp only [List.length_cons] at hlen
      omega
    · rw [← hc]
      simpa using hp

theorem trimRight_length_le (l : Str) : (trimRight l).length ≤ l.length := by
  unfold trimRight
  calc ((l.reverse.dropWhile isSpace).reverse).length
      = (l.reverse.dropWhile isSpace).length := List.length_reverse _
    _ ≤ l.reverse.length := (List.dropWhile_suffix _).sublist.length_le
    _ = l.length := List.length_reverse _

theorem trimLeft_of_trim {l : Str} (h : trimSpace l = l) : trimLeft l = l := by
  have h1 : (trimLeft l).length ≤ l.length := (List.dropWhile_suffix _).sublist.length_le
  have h2 : (trimRight (trimLeft l)).length ≤ (trimLeft l).length := trimRight_length_le _
  have h3 : (trimSpace l).length = l.length := by rw [h]
  have h4 : (trimLeft l).length = l.length := by
    unfold trimSpace at h3
    omega
  exact ((List.dropWhile_suffix _).sublist).eq_of_length h4

theorem trimRight_of_trim {l : Str} (h : trimSpace l = l) : trimRight l = l := by
  have h1 := trimLeft_of_trim h
  unfold trimSpace at h
  rw [h1] at h
  exact h

theorem dropWhile_rev_of_trim {l : Str} (h : trimSpace l = l) :
    List.dropWhile isSpace l.reverse = l.reverse := by
  have h1 := trimRight_of_trim h
  unfold trimRight at h1
  have := congrArg List.reverse h1
  simpa using this

theorem trim_head_not {l : Str} {c : Char} (h : trimSpace l = l)
    (hc : l.head? = some c) : isSpace c = false :=
  dropWhile_eq_self_head (trimLeft_of_trim h) hc

theorem trim_getLast_not {l : Str} {c : Char} (h : trimSpace l = l)
    (hc : l.getLast? = some c) : isSpace c = false := by
  have h1 := dropWhile_rev_of_trim h
  have hc' : l.reverse.head? = some c := by rw [List.head?_reverse]; exact hc
  exact dropWhile_eq_self_head h1 hc'

theorem trimLeft_eq_self_of_head {l : Str}
    (h : ∀ c, l.head? = some c → isSpace c = false) : trimLeft l = l := by
  cases l with
  | nil => rfl
  | cons a rest =>
    have := h a rfl
    unfold trimLeft
    rw [List.dropWhile_cons, if_neg (by simp [this])]

theorem trimRight_eq_self_of_getLast {l : Str}
    (h : ∀ c, l.getLast? = some c → isSpace c = false) : trimRight l = l := by
  unfold trimRight
  cases hr : l.reverse with
  | nil =>
    have : l = [] := by simpa using congrArg List.reverse hr
    subst this
    rfl
  | cons a rest =>
    have ha : l.getLast? = some a := by
      rw [← List.head?_reverse, hr]
      rfl
    have := h a ha
    rw [List.dropWhile_cons, if_neg (by simp [this]), ← hr]
    exact List.reverse_reverse l

theorem trimSpace_eq_self {l : Str}
    (hh : ∀ c, l.head? = some c → isSpace c = false)
    (hg : ∀ c, l.getLast? = some c → isSpace c = false) : trimSpace l = l := by
  unfold trimSpace
  rw [trimLeft_eq_self_of_head hh, trimRight_eq_self_of_getLast hg]

theorem trimSpace_good_append {a t : Str} {c : Char} (hhead : a.head? = some c)
    (hc : isSpace c = false) (ht : trimSpace t = t) (hne : t ≠ []) :
    trimSpace (a ++ t) = a ++ t := by
  apply trimSpace_eq_self
  · intro d hd
    cases a with
    | nil => simp at hhead
    | cons x xs =>
      simp only [List.head?_cons, Option.some.injEq] at hhead
      simp only [List.cons_append, List.head?_cons, Option.some.injEq] at hd
      rw [← hd, hhead]
      exact hc
  · intro d hd
    rw [List.getLast?_append] at hd
    have hts : t.getLast?.isSome = true := List.getLast?_isSome.mpr hne
    cases hts' : t.getLast? with
    | none => rw [hts'] at hts; simp at hts
    | some e =>
      rw [hts'] at hd
      simp only [Option.or_some, Option.some.injEq] at hd
      subst hd
      exact trim_getLast_not ht hts'

theorem trimSpace_cons_space (t : Str) : trimSpace (' ' :: t) = trimSpace t := by
  unfold trimSpace trimLeft
  rw [List.dropWhile_cons, if_pos (by decide)]

theorem head?_append_left {α : Type} {l r : List α} (h : l ≠ []) :
    (l ++ r).head? = l.head? := by
  cases l with
  | nil => exact absurd rfl h
  | cons a rest => rfl

theorem trim_trim (l : Str) : trimSpace (trimSpace l) = trimSpace l := by
  by_cases hv : trimSpace l = []
  · rw [hv]; rfl
  · apply trimSpace_eq_self
    · intro c hc
      obtain ⟨w, hw⟩ := List.dropWhile_suffix (l := (trimLeft l).reverse) isSpace
      have hvrep : trimLeft l = trimSpace l ++ w.reverse := by
        have := congrArg List.reverse hw
        simpa [trimSpace, trimRight] using this.symm
      have hhead : (trimLeft l).head? = some c := by
        rw [hvrep, head?_append_left hv]
        exact hc
      exact dropWhile_head_not hhead
    · intro c hc
      have hrev : (trimSpace l).reverse = List.dropWhile isSpace (trimLeft l).reverse := by
        simp [trimSpace, trimRight]
      have hc' : (List.dropWhile isSpace (trimLeft l).reverse).head? = some c := by
        rw [← hrev, List.head?_reverse]
        exact hc
      exact dropWhile_head_not hc'

theorem mem_trimSpace {c : Char} {l : Str} (h : c ∈ trimSpace l) : c ∈ l := by
  unfold trimSpace trimRight trimLeft at h
  rw [List.mem_reverse] at h
  have h1 := (List.dropWhile_suffix (l := (l.dropWhile isSpace).reverse) isSpace).sublist.subset h
  rw [List.mem_reverse] at h1
  exact (List.dropWhile_suffix isSpace).sublist.subset h1

theorem utf8Len_ascii {c : Char} (h : c.toNat < 128) : utf8Len c = 1 := by
  unfold utf8Len
  rw [if_pos (by omega)]

theorem byteLen_ascii {t : Str} (h : ∀ c ∈ t, c.toNat < 128) : byteLen t = t.length := by
  induction t with
  | nil => rfl
  | cons a rest ih =>
    unfold byteLen at *
    simp only [List.map_cons, List.sum_cons, List.length_cons]
    rw [utf8Len_ascii (h a (by simp)), ih (fun c hc => h c (by simp [hc]))]
    omega

theorem splitOnChar_sub {sep : Char} :
    ∀ (l piece : Str), piece ∈ splitOnChar sep l → ∀ c ∈ piece, c ∈ l := by
  intro l
  induction l with
  | nil =>
    intro piece hp c hc
    simp only [splitOnChar, List.mem_singleton] at hp
    subst hp
    simp at hc
  | cons a rest ih =>
    intro piece hp c hc
    by_cases ha : a = sep
    · rw [splitOnChar, if_pos ha] at hp
      rcases List.mem_cons.mp hp with h1 | h1
      · subst h1; simp at hc
      · exact List.mem_cons_of_mem _ (ih piece h1 c hc)
    · rw [splitOnChar, if_neg ha] at hp
      cases hsp : splitOnChar sep rest with
      | nil =>
        rw [hsp] at hp
        simp only [List.mem_singleton] at hp
        subst hp
        simp only [List.mem_singleton] at hc
        subst hc
        exact List.mem_cons_self _ _
      | cons h t =>
        rw [hsp] at hp
        rcases List.mem_cons.mp hp with h1 | h1
        · subst h1
          rcases List.mem_cons.mp hc with h2 | h2
          · subst h2; exact List.mem_cons_self _ _
          · have hh : h ∈ splitOnChar sep rest := by rw [hsp]; exact List.mem_cons_self _ _
            exact List.mem_cons_of_mem _ (ih h hh c h2)
        · have hh : piece ∈ splitOnChar sep rest := by rw [hsp]; exact List.mem_cons_of_mem _ h1
          exact List.mem_cons_of_mem _ (ih piece hh c hc)

end GDM

namespace GDM

theorem matchAt_none_of_not_mem {n : Nat} {d : Char} {s : Str} (hn : 1 ≤ n)
    (hd : d ∉ s) : matchAt n d s = none := by
  unfold matchAt
  rw [if_neg]
  intro h
  have hmem : d ∈ s.take n := by
    rw [h]
    exact List.mem_replicate.mpr ⟨by omega, rfl⟩
  exact hd (List.take_subset _ _ hmem)

theorem tryMatch_none {n : Nat} {s : Str} (hn : 1 ≤ n) (h1 : '*' ∉ s) (h2 : '_' ∉ s) :
    tryMatch n s = none := by
  unfold tryMatch
  rw [matchAt_none_of_not_mem hn h1, matchAt_none_of_not_mem hn h2]
  rfl

theorem scanF_no_marks {n : Nat} (hn : 1 ≤ n) :
    ∀ (fuel pos : Nat) (s : Str), '*' ∉ s → '_' ∉ s → scanF n fuel pos s = ([], s) := by
  intro fuel
  induction fuel with
  | zero => intro pos s _ _; rfl
  | succ fuel ih =>
    intro pos s h1 h2
    simp only [scanF, tryMatch_none hn h1 h2]
    cases s with
    | nil => rfl
    | cons ch rest =>
      dsimp only
      rw [ih (pos + 1) rest (fun hm => h1 (List.mem_cons_of_mem _ hm))
            (fun hm => h2 (List.mem_cons_of_mem _ hm))]

theorem scan_no_marks {n : Nat} {s : Str} (hn : 1 ≤ n) (h1 : '*' ∉ s) (h2 : '_' ∉ s)
    (pos : Nat) : scan n pos s = ([], s) :=
  scanF_no_marks hn s.length pos s h1 h2

theorem parseInline_no_marks {t : Str} (h1 : '*' ∉ t) (h2 : '_' ∉ t) (c : Int) :
    conversion.parseInlineFormatting t c = (t, []) := by
  have b2 : scan 2 0 t = ([], t) := scan_no_marks (by omega) h1 h2 0
  have b1 : scan 1 0 t = ([], t) := scan_no_marks (by omega) h1 h2 0
  simp [conversion.parseInlineFormatting, b2, b1, conversion.styleRequests]

theorem legacy_parseInline_no_marks {t : Str} (h1 : '*' ∉ t) (h2 : '_' ∉ t) (c : Int) :
    legacy.parseInlineFormatting t c = (t, []) := by
  have b2 : scan 2 0 t = ([], t) := scan_no_marks (by omega) h1 h2 0
  have b1 : scan 1 0 t = ([], t) := scan_no_marks (by omega) h1 h2 0
  simp [legacy.parseInlineFormatting, b2, b1]

theorem styleRequests_length {n : Nat} {f : docs.StyleField} {s : Int} :
    ∀ (ms : List (Nat × Str)) (off : Int),
      (conversion.styleRequests n f s ms off).length = ms.length := by
  intro ms
  induction ms with
  | nil => intro off; rfl
  | cons m rest ih =>
    intro off
    obtain ⟨pos, c⟩ := m
    simp [conversion.styleRequests, ih]

theorem styleRequests_get {n : Nat} {f : docs.StyleField} {s : Int} :
    ∀ (ms : List (Nat × Str)) (off : Int) (k : Nat) (p : Nat) (c : Str),
      ms[k]? = some (p, c) →
      (conversion.styleRequests n f s ms off)[k]? =
        some (docs.Request.updateTextStyle (s + ((p : Int) - (off + 2 * n * k)))
          (s + ((p : Int) - (off + 2 * n * k)) + c.length) f) := by
  intro ms
  induction ms with
  | nil => intro off k p c h; simp at h
  | cons m rest ih =>
    intro off k p c h
    obtain ⟨q, cc⟩ := m
    cases k with
    | zero =>
      simp only [List.getElem?_cons_zero, Option.some.injEq, Prod.mk.injEq] at h
      obtain ⟨hq, hcc⟩ := h
      subst hq; subst hcc
      simp only [conversion.styleRequests, List.getElem?_cons_zero, Option.some.injEq]
      congr 2 <;> push_cast <;> ring
    | succ k =>
      simp only [List.getElem?_cons_succ] at h
      simp only [conversion.styleRequests, List.getElem?_cons_succ]
      rw [ih _ k p c h]
      congr 3 <;> push_cast <;> ring

theorem splitOnChar_append {sep : Char} :
    ∀ (a b : Str), sep ∉ a →
      splitOnChar sep (a ++ sep :: b) = a :: splitOnChar sep b := by
  intro a
  induction a with
  | nil =>
    intro b _
    simp [splitOnChar]
  | cons x a' ih =>
    intro b hs
    have hx : x ≠ sep := fun h => hs (h ▸ List.mem_cons_self _ _)
    rw [List.cons_append, splitOnChar, if_neg hx,
      ih b (fun hm => hs (List.mem_cons_of_mem _ hm))]

theorem splitOnChar_cons_sep {sep : Char} (b : Str) :
    splitOnChar sep (sep :: b) = [] :: splitOnChar sep b := by
  rw [splitOnChar, if_pos rfl]

theorem findLoop_eq_find? (name : Str) :
    ∀ secs : List document.Section,
      document.findLoop name secs = secs.find? (fun s => document.eqFold s.Title name) := by
  intro secs
  induction secs with
  | nil => rfl
  | cons s rest ih =>
    rw [document.findLoop, List.find?_cons]
    by_cases h : document.eqFold s.Title name = true
    · rw [if_pos h, h]
    · rw [if_neg h, ih]
      have : document.eqFold s.Title name = false := by
        revert h; cases document.eqFold s.Title name <;> simp
      rw [this]

end GDM

namespace GDM

theorem takeWhile_hash : ∀ (n : Nat) (rest : Str), rest.take 1 ≠ ('#' :: []) →
    (List.replicate n '#' ++ rest).takeWhile (fun c => c == '#') = List.replicate n '#' := by
  intro n
  induction n with
  | zero =>
    intro rest h
    cases rest with
    | nil => rfl
    | cons a r =>
      have ha : a ≠ '#' := by
        intro hh
        exact h (by rw [hh]; rfl)
      simp only [List.replicate, List.nil_append, List.takeWhile_cons]
      rw [if_neg (by simpa using ha)]
  | succ n ih =>
    intro rest h
    rw [List.replicate_succ, List.cons_append, List.takeWhile_cons,
      if_pos (by simp), ih rest h, ← List.replicate_succ]

theorem compileLines_blank (l : Str) (ls : List Str) (c : Int) (h : trimSpace l = []) :
    conversion.compileLines (l :: ls) c =
      docs.Request.insertText c ('\n' :: []) :: conversion.compileLines ls (c + 1) := by
  simp [conversion.compileLines, h]

theorem legacy_compileLines_blank (l : Str) (ls : List Str) (c : Int) (h : trimSpace l = []) :
    legacy.compileLines (l :: ls) c =
      docs.Request.insertText c ('\n' :: []) :: legacy.compileLines ls (c + 1) := by
  simp [legacy.compileLines, h]

theorem compileLines_heading_raw (l : Str) (ls : List Str) (c : Int)
    (h1 : trimSpace l ≠ []) (h2 : (trimSpace l).take 1 = ('#' :: [])) :
    conversion.compileLines (l :: ls) c =
      docs.Request.insertText c
          (trimSpace ((trimSpace l).drop ((trimSpace l).takeWhile (fun ch => ch == '#')).length)
            ++ ('\n' :: []))
        :: docs.Request.updateParagraphStyle c
            (c + ((trimSpace ((trimSpace l).drop
                ((trimSpace l).takeWhile (fun ch => ch == '#')).length)).length : Int) + 1)
            (conversion.headingStyle ((trimSpace l).takeWhile (fun ch => ch == '#')).length)
        :: conversion.compileLines ls
            (c + ((trimSpace ((trimSpace l).drop
                ((trimSpace l).takeWhile (fun ch => ch == '#')).length)).length : Int) + 1) := by
  simp only [conversion.compileLines]
  rw [if_neg h1, if_pos h2]

theorem legacy_compileLines_heading_raw (l : Str) (ls : List Str) (c : Int)
    (h1 : trimSpace l ≠ []) (h2 : (trimSpace l).take 1 = ('#' :: [])) :
    legacy.compileLines (l :: ls) c =
      docs.Request.insertText c
          (trimSpace ((trimSpace l).drop ((trimSpace l).takeWhile (fun ch => ch == '#')).length)
            ++ ('\n' :: []))
        :: docs.Request.updateParagraphStyle c
            (c + ((byteLen (trimSpace ((trimSpace l).drop
                ((trimSpace l).takeWhile (fun ch => ch == '#')).length))) : Int) + 1)
            (conversion.headingStyle ((trimSpace l).takeWhile (fun ch => ch == '#')).length)
        :: legacy.compileLines ls
            (c + ((byteLen (trimSpace ((trimSpace l).drop
                ((trimSpace l).takeWhile (fun ch => ch == '#')).length))) : Int) + 1) := by
  simp only [legacy.compileLines]
  rw [if_neg h1, if_pos h2]

theorem compileLines_heading (l : Str) (ls : List Str) (c : Int) (n : Nat) (rest : Str)
    (h : trimSpace l = List.replicate n '#' ++ rest) (hn : 1 ≤ n)
    (hrest : rest.take 1 ≠ ('#' :: [])) :
    conversion.compileLines (l :: ls) c =
      docs.Request.insertText c (trimSpace rest ++ ('\n' :: []))
        :: docs.Request.updateParagraphStyle c (c + ((trimSpace rest).length : Int) + 1)
             (conversion.headingStyle n)
        :: conversion.compileLines ls (c + ((trimSpace rest).length : Int) + 1) := by
  obtain ⟨m, rfl⟩ : ∃ m, n = m + 1 := ⟨n - 1, by omega⟩
  have hne : trimSpace l ≠ [] := by
    rw [h, List.replicate_succ, List.cons_append]
    simp
  have htake : (trimSpace l).take 1 = ('#' :: []) := by
    rw [h, List.replicate_succ, List.cons_append]
    rfl
  have htw : (trimSpace l).takeWhile (fun ch => ch == '#') = List.replicate (m + 1) '#' := by
    rw [h]
    exact takeWhile_hash (m + 1) rest hrest
  have hdrop : (trimSpace l).drop (m + 1) = rest := by
    rw [h]
    have := List.drop_left (List.replicate (m + 1) '#') rest
    rwa [List.length_replicate] at this
  rw [compileLines_heading_raw l ls c hne htake, htw, List.length_replicate, hdrop]

theorem compileLines_plain (l : Str) (ls : List Str) (c : Int)
    (h1 : trimSpace l ≠ []) (h2 : (trimSpace l).take 1 ≠ ('#' :: [])) :
    conversion.compileLines (l :: ls) c =
      docs.Request.insertText c
          ((conversion.parseInlineFormatting (trimSpace l) c).1 ++ ('\n' :: []))
        :: ((conversion.parseInlineFormatting (trimSpace l) c).2
          ++ conversion.compileLines ls
              (c + (((conversion.parseInlineFormatting (trimSpace l) c).1).length : Int) + 1)) := by
  simp only [conversion.compileLines]
  rw [if_neg h1, if_neg h2]

theorem legacy_compileLines_plain (l : Str) (ls : List Str) (c : Int)
    (h1 : trimSpace l ≠ []) (h2 : (trimSpace l).take 1 ≠ ('#' :: [])) :
    legacy.compileLines (l :: ls) c =
      docs.Request.insertText c
          ((legacy.parseInlineFormatting (trimSpace l) c).1 ++ ('\n' :: []))
        :: ((legacy.parseInlineFormatting (trimSpace l) c).2
          ++ legacy.compileLines ls
              (c + ((byteLen (legacy.parseInlineFormatting (trimSpace l) c).1) : Int) + 1)) := by
  simp only [legacy.compileLines]
  rw [if_neg h1, if_neg h2]

theorem legacy_eq_conversion_lines :
    ∀ (ls : List Str),
      (∀ line ∈ ls, ∀ ch ∈ line, ch.toNat < 128 ∧ ch ≠ '*' ∧ ch ≠ '_') →
      ∀ cur, legacy.compileLines ls cur = conversion.compileLines ls cur := by
  intro ls
  induction ls with
  | nil => intro _ _; rfl
  | cons l rest ih =>
    intro h cur
    have hl : ∀ ch ∈ l, ch.toNat < 128 ∧ ch ≠ '*' ∧ ch ≠ '_' :=
      fun ch hc => h l (List.mem_cons_self _ _) ch hc
    have hrest : ∀ line ∈ rest, ∀ ch ∈ line, ch.toNat < 128 ∧ ch ≠ '*' ∧ ch ≠ '_' :=
      fun line hm => h line (List.mem_cons_of_mem _ hm)
    have hltrim : ∀ ch ∈ trimSpace l, ch.toNat < 128 ∧ ch ≠ '*' ∧ ch ≠ '_' :=
      fun ch hc => hl ch (mem_trimSpace hc)
    by_cases hb : trimSpace l = []
    · rw [compileLines_blank _ _ _ hb, legacy_compileLines_blank _ _ _ hb, ih hrest]
    · by_cases hh : (trimSpace l).take 1 = ('#' :: [])
      · rw [legacy_compileLines_heading_raw _ _ _ hb hh, compileLines_heading_raw _ _ _ hb hh]
        have hT : ∀ ch ∈ trimSpace ((trimSpace l).drop
            ((trimSpace l).takeWhile (fun ch => ch == '#')).length), ch.toNat < 128 :=
          fun ch hc =>
            (hltrim ch (List.drop_subset _ _ (mem_trimSpace hc))).1
        rw [byteLen_ascii hT, ih hrest]
      · rw [legacy_compileLines_plain _ _ _ hb hh, compileLines_plain _ _ _ hb hh]
        have hm1 : '*' ∉ trimSpace l := fun hm => (hltrim '*' hm).2.1 rfl
        have hm2 : '_' ∉ trimSpace l := fun hm => (hltrim '_' hm).2.2 rfl
        rw [parseInline_no_marks hm1 hm2, legacy_parseInline_no_marks hm1 hm2]
        have hA : ∀ ch ∈ trimSpace l, ch.toNat < 128 := fun ch hc => (hltrim ch hc).1
        rw [byteLen_ascii hA, ih hrest]

theorem legacy_eq_conversion (md : Str) (s : Int)
    (h : ∀ ch ∈ md, ch.toNat < 128 ∧ ch ≠ '*' ∧ ch ≠ '_') :
    legacy.markdownToDocsRequests md s = conversion.MarkdownToDocsRequests md s := by
  unfold legacy.markdownToDocsRequests conversion.MarkdownToDocsRequests
  exact legacy_eq_conversion_lines (splitOnChar '\n' md)
    (fun line hm ch hc => h ch (splitOnChar_sub md line hm ch hc)) s

end GDM

namespace GDM

theorem renderRun_plain (t : Str) : conversion.renderRun { content := t } = t := by
  simp [conversion.renderRun]

theorem GetParagraphText_single (t : Str) (st : String) :
    conversion.GetParagraphText { elements := [{ content := t }], namedStyleType := st } =
      trimSpace t := by
  simp [conversion.GetParagraphText]

theorem headingLevelOf_name {n : Nat} (h1 : 1 ≤ n) (h2 : n ≤ 6) :
    conversion.headingLevelOf ("HEADING_" ++ toString n) = some n := by
  interval_cases n <;> rfl

theorem styleName_ne {n : Nat} (h1 : 1 ≤ n) (h2 : n ≤ 6) : styleName (some n) ≠ "" := by
  interval_cases n <;> decide

theorem renderParagraph_entry (p : Str × Option Nat) (hg : goodText p.1)
    (hlvl : ∀ n, p.2 = some n → 1 ≤ n ∧ n ≤ 6) :
    conversion.renderParagraph
      { elements := [{ content := p.1 }], namedStyleType := styleName p.2 } =
      renderEntry p := by
  obtain ⟨t, lvl⟩ := p
  cases lvl with
  | none =>
    simp only [styleName]
    unfold conversion.renderParagraph
    rw [if_neg (by simp)]
    simp only [renderEntry]
    unfold conversion.formatParagraphAsMarkdown conversion.paragraphContent
    simp only [List.map_cons, List.map_nil, List.flatten_cons, List.flatten_nil,
      List.append_nil, renderRun_plain]
    rw [if_pos (by rw [hg.1]; exact hg.2.1)]
  | some n =>
    obtain ⟨hn1, hn6⟩ := hlvl n rfl
    unfold conversion.renderParagraph
    rw [if_pos (styleName_ne hn1 hn6)]
    simp only [styleName]
    rw [headingLevelOf_name hn1 hn6]
    rw [GetParagraphText_single, hg.1]
    rfl

theorem DocsToMarkdown_plain (T : Str) (ps : List (Str × Option Nat))
    (hps : ∀ p ∈ ps, goodText p.1 ∧ ∀ n, p.2 = some n → 1 ≤ n ∧ n ≤ 6) :
    conversion.DocsToMarkdown (mkPlainDoc T ps) =
      ('#' :: ' ' :: T ++ ('\n' :: '\n' :: [])) ++ (ps.map renderEntry).flatten := by
  unfold conversion.DocsToMarkdown mkPlainDoc
  congr 1
  rw [List.map_map]
  congr 1
  apply List.map_congr_left
  intro p hp
  simp only [Function.comp_apply]
  exact renderParagraph_entry p (hps p hp).1 (hps p hp).2

theorem renderEntry_eq (p : Str × Option Nat) :
    renderEntry p = blockLine p ++ ('\n' :: '\n' :: []) := by
  obtain ⟨t, lvl⟩ := p
  cases lvl <;> simp [renderEntry, blockLine]

theorem linesOf_cons (p : Str × Option Nat) (rest : List (Str × Option Nat)) :
    linesOf (p :: rest) = blockLine p :: [] :: linesOf rest := by
  obtain ⟨t, lvl⟩ := p
  cases lvl <;> rfl

theorem blockLine_no_nl (p : Str × Option Nat) (hg : goodText p.1) :
    '\n' ∉ blockLine p := by
  obtain ⟨t, lvl⟩ := p
  have hnl := hg.2.2.1
  cases lvl with
  | none => exact hnl
  | some n =>
    intro hm
    simp only [blockLine] at hm
    rcases List.mem_append.mp hm with h | h
    · exact absurd (List.mem_replicate.mp h).2 (by decide)
    · rcases List.mem_cons.mp h with h | h
      · exact absurd h (by decide)
      · exact hnl h

theorem split_blocks (ps : List (Str × Option Nat)) (hps : ∀ p ∈ ps, goodText p.1) :
    splitOnChar '\n' ((ps.map renderEntry).flatten) = linesOf ps := by
  induction ps with
  | nil => rfl
  | cons p rest ih =>
    simp only [List.map_cons, List.flatten_cons]
    rw [renderEntry_eq]
    have hre : (blockLine p ++ ('\n' :: '\n' :: [])) ++ (rest.map renderEntry).flatten
        = blockLine p ++ '\n' :: ('\n' :: (rest.map renderEntry).flatten) := by
      simp
    rw [hre, splitOnChar_append _ _ (blockLine_no_nl p (hps p (List.mem_cons_self _ _))),
      splitOnChar_cons_sep, ih (fun q hq => hps q (List.mem_cons_of_mem _ hq)), linesOf_cons]

theorem split_render (T : Str) (ps : List (Str × Option Nat)) (hT : goodText T)
    (hps : ∀ p ∈ ps, goodText p.1 ∧ ∀ n, p.2 = some n → 1 ≤ n ∧ n ≤ 6) :
    splitOnChar '\n' (conversion.DocsToMarkdown (mkPlainDoc T ps)) =
      linesOf ((T, some 1) :: ps) := by
  rw [DocsToMarkdown_plain T ps hps]
  have hre : ('#' :: ' ' :: T ++ ('\n' :: '\n' :: [])) ++ (ps.map renderEntry).flatten
      = ('#' :: ' ' :: T) ++ '\n' :: ('\n' :: (ps.map renderEntry).flatten) := by
    simp
  have hnl : '\n' ∉ ('#' :: ' ' :: T) := by
    intro hm
    rcases List.mem_cons.mp hm with h | h
    · exact absurd h (by decide)
    · rcases List.mem_cons.mp h with h | h
      · exact absurd h (by decide)
      · exact hT.2.2.1 h
  rw [hre, splitOnChar_append _ _ hnl, splitOnChar_cons_sep,
    split_blocks ps (fun q hq => (hps q hq).1), linesOf_cons]
  rfl

end GDM

namespace GDM

theorem trim_blockLine_heading (t : Str) (n : Nat) (hg : goodText t) (hn : 1 ≤ n) :
    trimSpace (List.replicate n '#' ++ (' ' :: t)) = List.replicate n '#' ++ (' ' :: t) := by
  obtain ⟨m, rfl⟩ : ∃ m, n = m + 1 := ⟨n - 1, by omega⟩
  have heq : List.replicate (m + 1) '#' ++ (' ' :: t)
      = (List.replicate (m + 1) '#' ++ (' ' :: [])) ++ t := by
    simp
  rw [heq]
  apply trimSpace_good_append (c := '#')
  · rw [List.replicate_succ, List.cons_append]
    rfl
  · decide
  · exact hg.1
  · exact hg.2.1

theorem compile_linesOf :
    ∀ (ps : List (Str × Option Nat)),
      (∀ p ∈ ps, goodText p.1 ∧ ∀ n, p.2 = some n → 1 ≤ n ∧ n ≤ 6) →
      ∀ c, conversion.compileLines (linesOf ps) c = roundTripRequests ps c := by
  intro ps
  induction ps with
  | nil =>
    intro _ c
    rw [show linesOf [] = [[]] from rfl, compileLines_blank [] [] c rfl]
    rfl
  | cons p rest ih =>
    intro h c
    obtain ⟨t, lvl⟩ := p
    have hg : goodText t := (h _ (List.mem_cons_self _ _)).1
    have hrest := fun q hq => h q (List.mem_cons_of_mem _ hq)
    rw [linesOf_cons]
    have harith : ∀ x : Int, (x + 1) + 1 = x + 2 := by intro x; ring
    cases lvl with
    | some n =>
      obtain ⟨hn1, hn6⟩ := (h _ (List.mem_cons_self _ _)).2 n rfl
      have hbl : blockLine (t, some n) = List.replicate n '#' ++ (' ' :: t) := rfl
      have htrim : trimSpace (blockLine (t, some n)) = List.replicate n '#' ++ (' ' :: t) := by
        rw [hbl]
        exact trim_blockLine_heading t n hg hn1
      have hsp : (' ' :: t).take 1 ≠ ('#' :: []) := by
        intro hcon
        simp [List.take] at hcon
      rw [compileLines_heading (blockLine (t, some n)) _ c n (' ' :: t) htrim hn1 hsp,
        trimSpace_cons_space, hg.1,
        compileLines_blank [] (linesOf rest) _ rfl, harith,
        ih hrest (c + (t.length : Int) + 2)]
      rfl
    | none =>
      have hbl : blockLine (t, none) = t := rfl
      have h1 : trimSpace t ≠ [] := by rw [hg.1]; exact hg.2.1
      have h2 : (trimSpace t).take 1 ≠ ('#' :: []) := by rw [hg.1]; exact hg.2.2.2.2.2
      rw [show (blockLine (t, none) :: [] :: linesOf rest) = (t :: [] :: linesOf rest) from rfl,
        compileLines_plain t _ c h1 h2, hg.1,
        parseInline_no_marks hg.2.2.2.1 hg.2.2.2.2.1 c,
        compileLines_blank [] (linesOf rest) _ rfl, harith,
        ih hrest (c + (t.length : Int) + 2)]
      rfl

theorem roundTrip_plain (T : Str) (ps : List (Str × Option Nat)) (hT : goodText T)
    (hps : ∀ p ∈ ps, goodText p.1 ∧ ∀ n, p.2 = some n → 1 ≤ n ∧ n ≤ 6) :
    conversion.MarkdownToDocsRequests (conversion.DocsToMarkdown (mkPlainDoc T ps)) 1 =
      roundTripRequests ((T, some 1) :: ps) 1 := by
  rw [conversion.MarkdownToDocsRequests, split_render T ps hT hps]
  apply compile_linesOf
  intro p hp
  rcases List.mem_cons.mp hp with h | h
  · subst h
    refine ⟨hT, ?_⟩
    intro n hn
    simp only [Option.some.injEq] at hn
    omega
  · exact hps p h

end GDM

namespace GDM

theorem rowLine_no_nl (row : docs.TableRow)
    (h : ∀ cell ∈ row.tableCells, '\n' ∉ conversion.getTableCellText cell) :
    '\n' ∉ conversion.rowLine row := by
  intro hm
  unfold conversion.rowLine at hm
  rcases List.mem_cons.mp hm with h1 | h1
  · exact absurd h1 (by decide)
  · rw [List.mem_flatten] at h1
    obtain ⟨l, hl, hc⟩ := h1
    rw [List.mem_map] at hl
    obtain ⟨cell, hcell, rfl⟩ := hl
    rcases List.mem_cons.mp hc with h2 | h2
    · exact absurd h2 (by decide)
    · rcases List.mem_append.mp h2 with h3 | h3
      · exact h cell hcell h3
      · rcases List.mem_cons.mp h3 with h4 | h4
        · exact absurd h4 (by decide)
        · rcases List.mem_cons.mp h4 with h5 | h5
          · exact absurd h5 (by decide)
          · simp at h5

theorem sepLine_no_nl (row : docs.TableRow) : '\n' ∉ conversion.sepLine row := by
  intro hm
  unfold conversion.sepLine at hm
  rcases List.mem_cons.mp hm with h1 | h1
  · exact absurd h1 (by decide)
  · rw [List.mem_flatten] at h1
    obtain ⟨l, hl, hc⟩ := h1
    rw [List.mem_map] at hl
    obtain ⟨cell, hcell, rfl⟩ := hl
    exact absurd hc (by decide)

theorem count_flatten_cells :
    ∀ (cells : List docs.TableCell),
      (∀ cell ∈ cells, '|' ∉ conversion.getTableCellText cell) →
      List.count '|' ((cells.map
          (fun cell => ' ' :: conversion.getTableCellText cell ++ (' ' :: '|' :: []))).flatten)
        = cells.length := by
  intro cells
  induction cells with
  | nil => intro _; rfl
  | cons cell rest ih =>
    intro h
    simp only [List.map_cons, List.flatten_cons, List.count_append, List.count_cons,
      List.length_cons]
    rw [ih (fun q hq => h q (List.mem_cons_of_mem _ hq))]
    have hz : List.count '|' (conversion.getTableCellText cell) = 0 :=
      List.count_eq_zero.mpr (h cell (List.mem_cons_self _ _))
    rw [hz]
    rw [if_neg (show ¬((' ' == '|') = true) by decide),
      if_pos (show (('|' == '|') = true) by decide)]
    simp only [List.count_nil]
    omega

theorem count_rowLine (row : docs.TableRow)
    (h : ∀ cell ∈ row.tableCells, '|' ∉ conversion.getTableCellText cell) :
    List.count '|' (conversion.rowLine row) = row.tableCells.length + 1 := by
  unfold conversion.rowLine
  rw [List.count_cons, count_flatten_cells row.tableCells h]
  simp

theorem count_sepflat :
    ∀ (cells : List docs.TableCell),
      List.count '|' ((cells.map (fun _ => (" --- |").data)).flatten) = cells.length := by
  intro cells
  induction cells with
  | nil => rfl
  | cons cell rest ih =>
    simp only [List.map_cons, List.flatten_cons, List.count_append, List.length_cons]
    rw [ih]
    have hone : List.count '|' ((" --- |").data) = 1 := by decide
    rw [hone]
    omega

theorem count_sepLine (row : docs.TableRow) :
    List.count '|' (conversion.sepLine row) = row.tableCells.length + 1 := by
  unfold conversion.sepLine
  rw [List.count_cons, count_sepflat row.tableCells]
  simp

theorem split_rows :
    ∀ (rest : List docs.TableRow),
      (∀ row ∈ rest, '\n' ∉ conversion.rowLine row) →
      splitOnChar '\n'
          ((rest.map (fun r => conversion.rowLine r ++ ('\n' :: []))).flatten ++ ('\n' :: []))
        = rest.map conversion.rowLine ++ ([] :: [] :: []) := by
  intro rest
  induction rest with
  | nil =>
    intro _
    rw [show ((List.map (fun r => conversion.rowLine r ++ ('\n' :: [])) []).flatten
        ++ ('\n' :: [])) = ('\n' :: []) from rfl, splitOnChar_cons_sep]
    rfl
  | cons r rs ih =>
    intro h
    simp only [List.map_cons, List.flatten_cons]
    have hre : ((conversion.rowLine r ++ ('\n' :: []))
          ++ (rs.map (fun q => conversion.rowLine q ++ ('\n' :: []))).flatten) ++ ('\n' :: [])
        = conversion.rowLine r
          ++ '\n' :: ((rs.map (fun q => conversion.rowLine q ++ ('\n' :: []))).flatten
            ++ ('\n' :: [])) := by
      simp
    rw [hre, splitOnChar_append _ _ (h r (List.mem_cons_self _ _)),
      ih (fun q hq => h q (List.mem_cons_of_mem _ hq))]
    rfl

theorem split_tableToMarkdown (t : docs.Table) (r0 : docs.TableRow)
    (rest : List docs.TableRow) (htr : t.tableRows = r0 :: rest)
    (hnl : ∀ row ∈ t.tableRows, ∀ cell ∈ row.tableCells,
      '\n' ∉ conversion.getTableCellText cell) :
    splitOnChar '\n' (conversion.tableToMarkdown t) =
      conversion.rowLine r0 :: conversion.sepLine r0
        :: (rest.map conversion.rowLine ++ ([] :: [] :: [])) := by
  have h0 : '\n' ∉ conversion.rowLine r0 :=
    rowLine_no_nl r0 (fun cell hc => hnl r0 (htr ▸ List.mem_cons_self _ _) cell hc)
  have hrest : ∀ row ∈ rest, '\n' ∉ conversion.rowLine row := by
    intro row hrow
    exact rowLine_no_nl row (fun cell hc => hnl row (htr ▸ List.mem_cons_of_mem _ hrow) cell hc)
  unfold conversion.tableToMarkdown
  rw [htr]
  have hre : ((conversion.rowLine r0 ++ '\n' :: conversion.sepLine r0
        ++ '\n' :: (rest.map (fun r => conversion.rowLine r ++ ('\n' :: []))).flatten))
        ++ ('\n' :: [])
      = conversion.rowLine r0 ++ '\n' :: (conversion.sepLine r0
          ++ '\n' :: ((rest.map (fun r => conversion.rowLine r ++ ('\n' :: []))).flatten
            ++ ('\n' :: []))) := by
    simp
  rw [hre, splitOnChar_append _ _ h0, splitOnChar_append _ _ (sepLine_no_nl r0),
    split_rows rest hrest]

end GDM

namespace GDM

/-- C1: for every markdown line compiled at start index s, the
inline-formatting pass emits bold and italic style operations whose ranges
address the text as it exists after marker removal: the k-th match of a
stage, at rune position p with content c in the text that stage scans
(the original line for the bold stage, the bold-stripped line for the
italic stage), yields an operation over [s + p - m, s + p - m + |c|) where
m is the cumulative rune length of the markers removed by the k earlier
matches of the same stage (4 per bold match, 2 per italic match).  In
particular "**ab**" compiles to InsertText "ab\n" plus a bold operation
over [s, s+2), and "**bold** and *italic*" compiled from index 5 strips to
"bold and italic" with bold range [5,9) and italic range [14,20). -/
theorem C1_inline_offsets :
    (∀ (text : Str) (s : Int) (k : Nat) (p : Nat) (c : Str),
        ((scan 2 0 text).1)[k]? = some (p, c) →
        ((conversion.parseInlineFormatting text s).2)[k]? =
          some (docs.Request.updateTextStyle (s + ((p : Int) - 4 * k))
            (s + ((p : Int) - 4 * k) + c.length) docs.StyleField.bold)) ∧
    (∀ (text : Str) (s : Int) (k : Nat) (p : Nat) (c : Str),
        ((scan 1 0 (scan 2 0 text).2).1)[k]? = some (p, c) →
        ((conversion.parseInlineFormatting text s).2)[(scan 2 0 text).1.length + k]? =
          some (docs.Request.updateTextStyle (s + ((p : Int) - 2 * k))
            (s + ((p : Int) - 2 * k) + c.length) docs.StyleField.italic)) ∧
    (∀ s : Int, conversion.MarkdownToDocsRequests ("**ab**").data s =
        [docs.Request.insertText s (("ab\n").data),
         docs.Request.updateTextStyle s (s + 2) docs.StyleField.bold]) ∧
    conversion.MarkdownToDocsRequests ("**bold** and *italic*").data 5 =
      [docs.Request.insertText 5 (("bold and italic\n").data),
       docs.Request.updateTextStyle 5 9 docs.StyleField.bold,
       docs.Request.updateTextStyle 14 20 docs.StyleField.italic] := by
  refine ⟨?_, ?_, ?_, by decide⟩
  · intro text s k p c hk
    have hkl : k < (scan 2 0 text).1.length := (List.getElem?_eq_some.mp hk).1
    unfold conversion.parseInlineFormatting
    dsimp only
    rw [List.getElem?_append, if_pos (by rw [styleRequests_length]; exact hkl),
      styleRequests_get (scan 2 0 text).1 0 k p c hk]
    simp only [Option.some.injEq, docs.Request.updateTextStyle.injEq]
    refine ⟨by push_cast; ring, by push_cast; ring, trivial⟩
  · intro text s k p c hk
    unfold conversion.parseInlineFormatting
    dsimp only
    rw [List.getElem?_append, if_neg (by rw [styleRequests_length]; omega)]
    have hsub : (scan 2 0 text).1.length + k -
        (conversion.styleRequests 2 docs.StyleField.bold s (scan 2 0 text).1 0).length = k := by
      rw [styleRequests_length]
      omega
    rw [hsub, styleRequests_get (scan 1 0 (scan 2 0 text).2).1 0 k p c hk]
    simp only [Option.some.injEq, docs.Request.updateTextStyle.injEq]
    refine ⟨by push_cast; ring, by push_cast; ring, trivial⟩
  · intro s
    have hsc2 : scan 2 0 ("**ab**").data = ([(0, ("ab").data)], ("ab").data) := by decide
    have hsc1 : scan 1 0 ("ab").data = ([], ("ab").data) := by decide
    have hsplit : splitOnChar '\n' ("**ab**").data = [("**ab**").data] := by decide
    have htrim : trimSpace ("**ab**").data = ("**ab**").data := by decide
    rw [conversion.MarkdownToDocsRequests, hsplit,
      compileLines_plain _ _ _ (by rw [htrim]; decide) (by rw [htrim]; decide), htrim]
    simp only [conversion.parseInlineFormatting, hsc2, hsc1, conversion.styleRequests,
      conversion.compileLines, List.append_nil, List.nil_append, List.cons_append]
    norm_num
    decide

/-- Witness for C1: the bold formula applied to the concrete line
"**bold** and *italic*" at start index 5 and match index 0. -/
theorem C1_inline_offsets_witness :
    ((conversion.parseInlineFormatting ("**bold** and *italic*").data 5).2)[0]? =
      some (docs.Request.updateTextStyle (5 + (((0 : Nat) : Int) - 4 * (0 : Nat)))
        (5 + (((0 : Nat) : Int) - 4 * (0 : Nat)) + (("bold").data.length : Int))
        docs.StyleField.bold) :=
  C1_inline_offsets.1 ("**bold** and *italic*").data 5 0 0 ("bold").data (by decide)

end GDM

namespace GDM

/-- C2 (amended): rendering a structured document of plain single-run
paragraphs and headings (texts trimmed, nonempty, free of newlines and of
inline marker characters, not starting with a hash; heading levels 1 to 6)
and compiling the markdown back from index 1 reproduces every paragraph's
text and heading level, in order and over exactly the re-inserted ranges,
except that the document title is prepended as an additional HEADING_1
paragraph and an empty paragraph is inserted after every paragraph.  The
original claim, reproduction of the text content and heading levels
exactly, fails because of that prepended title heading (see the
counterexample). -/
theorem C2_roundtrip :
    ∀ (T : Str) (ps : List (Str × Option Nat)),
      goodText T →
      (∀ p ∈ ps, goodText p.1 ∧ ∀ n, p.2 = some n → 1 ≤ n ∧ n ≤ 6) →
      conversion.MarkdownToDocsRequests (conversion.DocsToMarkdown (mkPlainDoc T ps)) 1 =
        roundTripRequests ((T, some 1) :: ps) 1 :=
  fun T ps hT hps => roundTrip_plain T ps hT hps

/-- C2 counterexample: a document with a single plain paragraph and no
headings round-trips into a batch that contains one SetParagraphStyle
request (a HEADING_1 over the re-inserted title), although the structure
extractor confirms the original document has no headings at all — the
original text content and heading levels are not reproduced exactly. -/
theorem C2_roundtrip_cex :
    conversion.MarkdownToDocsRequests
        (conversion.DocsToMarkdown (mkPlainDoc ("T").data [(("Hello").data, none)])) 1 =
      [docs.Request.insertText 1 ("T\n").data,
       docs.Request.updateParagraphStyle 1 3 "HEADING_1",
       docs.Request.insertText 3 ("\n").data,
       docs.Request.insertText 4 ("Hello\n").data,
       docs.Request.insertText 10 ("\n").data,
       docs.Request.insertText 11 ("\n").data] ∧
    (List.filter isParagraphStyleReq
        (conversion.MarkdownToDocsRequests
          (conversion.DocsToMarkdown (mkPlainDoc ("T").data [(("Hello").data, none)])) 1)).length
      = 1 ∧
    document.GetStructure (mkPlainDoc ("T").data [(("Hello").data, none)]) = [] := by
  refine ⟨by decide, by decide, by decide⟩

/-- Witness for C2: the amended round-trip equation at a concrete
two-paragraph document. -/
theorem C2_roundtrip_witness :
    conversion.MarkdownToDocsRequests
        (conversion.DocsToMarkdown (mkPlainDoc ("T").data
          [(("Hello").data, none), (("Head").data, some 2)])) 1 =
      roundTripRequests
        [(("T").data, some 1), (("Hello").data, none), (("Head").data, some 2)] 1 := by
  have h := C2_roundtrip ("T").data [(("Hello").data, none), (("Head").data, some 2)]
    (by decide)
    (by
      intro p hp
      rcases List.mem_cons.mp hp with rfl | hp
      · exact ⟨by decide, fun n hn => by simp at hn⟩
      rcases List.mem_cons.mp hp with rfl | hp
      · refine ⟨by decide, fun n hn => ?_⟩
        simp only [Option.some.injEq] at hn
        omega
      · simp at hp)
  exact h

/-- C3 (amended): the legacy compiler copy in src/ and the superseding
conversion-package compiler agree exactly on markdown made of ASCII
characters containing no inline marker characters; in general they
diverge: the legacy copy addresses bold ranges in byte offsets of the full
match including its markers, emits no italic operations, and advances its
cursor by byte counts (see the counterexample).  The original claim that
the two copies produce equal operation sequences for every input fails. -/
theorem C3_compilers :
    ∀ (md : Str) (s : Int),
      (∀ ch ∈ md, ch.toNat < 128 ∧ ch ≠ '*' ∧ ch ≠ '_') →
      legacy.markdownToDocsRequests md s = conversion.MarkdownToDocsRequests md s :=
  fun md s h => legacy_eq_conversion md s h

/-- C3 counterexample: on "**ab**" at start index 1 the legacy copy emits a
bold range [1,7) covering the markers while the conversion copy emits
[1,3), so the two operation sequences differ. -/
theorem C3_compilers_cex :
    legacy.markdownToDocsRequests ("**ab**").data 1 =
      [docs.Request.insertText 1 ("ab\n").data,
       docs.Request.updateTextStyle 1 7 docs.StyleField.bold] ∧
    conversion.MarkdownToDocsRequests ("**ab**").data 1 =
      [docs.Request.insertText 1 ("ab\n").data,
       docs.Request.updateTextStyle 1 3 docs.StyleField.bold] ∧
    legacy.markdownToDocsRequests ("**ab**").data 1 ≠
      conversion.MarkdownToDocsRequests ("**ab**").data 1 := by
  refine ⟨by decide, by decide, by decide⟩

/-- Witness for C3: the two compilers agree on a concrete ASCII,
marker-free input. -/
theorem C3_compilers_witness :
    legacy.markdownToDocsRequests ("# Title\nplain text").data 1 =
      conversion.MarkdownToDocsRequests ("# Title\nplain text").data 1 :=
  C3_compilers ("# Title\nplain text").data 1 (by decide)

/-- C4: a line whose trim is 1 to 6 hash characters followed by heading
text compiles, at cursor c, to InsertText(c, text + "\n") followed by a
SetParagraphStyle of HEADING_n over [c, c + runeLength(text) + 1), where n
is the number of leading hashes and text is the trimmed remainder, and the
cursor advances by runeLength(text) + 1 for the rest of the batch.  In
particular "###### Six\n" compiled at cursor 1 produces HEADING_6 over
[1, 5). -/
theorem C4_headings :
    (∀ (l : Str) (ls : List Str) (c : Int) (n : Nat) (rest : Str),
        trimSpace l = List.replicate n '#' ++ rest → 1 ≤ n → n ≤ 6 →
        rest.take 1 ≠ ('#' :: []) →
        conversion.compileLines (l :: ls) c =
          docs.Request.insertText c (trimSpace rest ++ ('\n' :: []))
            :: docs.Request.updateParagraphStyle c
                (c + ((trimSpace rest).length : Int) + 1) (conversion.headingStyle n)
            :: conversion.compileLines ls (c + ((trimSpace rest).length : Int) + 1)) ∧
    conversion.MarkdownToDocsRequests ("###### Six\n").data 1 =
      [docs.Request.insertText 1 ("Six\n").data,
       docs.Request.updateParagraphStyle 1 5 "HEADING_6",
       docs.Request.insertText 5 ("\n").data] := by
  refine ⟨?_, by decide⟩
  intro l ls c n rest h hn _ hrest
  exact compileLines_heading l ls c n rest h hn hrest

/-- Witness for C4: the heading equation at the concrete line "## Hi". -/
theorem C4_headings_witness :
    conversion.compileLines [("## Hi").data] 1 =
      docs.Request.insertText 1 (trimSpace (" Hi").data ++ ('\n' :: []))
        :: docs.Request.updateParagraphStyle 1
            (1 + ((trimSpace (" Hi").data).length : Int) + 1) (conversion.headingStyle 2)
        :: conversion.compileLines [] (1 + ((trimSpace (" Hi").data).length : Int) + 1) :=
  C4_headings.1 ("## Hi").data [] 1 2 (" Hi").data (by decide) (by decide) (by decide)
    (by decide)

/-- C5 (amended): the conversion-package compiler counts Unicode code
points everywhere: a plain line advances the cursor by the code-point count
of the stripped text plus one, so "é" advances the cursor by 2, one unit
for the character.  The legacy compiler copy in src/, also cited by the
claim, uses byte lengths instead: the same input advances its cursor by 3
(see the counterexample), so the claim does not hold of all the cited
code. -/
theorem C5_rune_indexing :
    (∀ (l : Str) (ls : List Str) (c : Int),
        trimSpace l ≠ [] → (trimSpace l).take 1 ≠ ('#' :: []) →
        conversion.compileLines (l :: ls) c =
          docs.Request.insertText c
              ((conversion.parseInlineFormatting (trimSpace l) c).1 ++ ('\n' :: []))
            :: ((conversion.parseInlineFormatting (trimSpace l) c).2
              ++ conversion.compileLines ls
                  (c + (((conversion.parseInlineFormatting (trimSpace l) c).1).length : Int)
                    + 1))) ∧
    conversion.MarkdownToDocsRequests ("é\nx").data 1 =
      [docs.Request.insertText 1 ("é\n").data, docs.Request.insertText 3 ("x\n").data] ∧
    legacy.markdownToDocsRequests ("é\nx").data 1 =
      [docs.Request.insertText 1 ("é\n").data, docs.Request.insertText 4 ("x\n").data] := by
  exact ⟨compileLines_plain, by decide, by decide⟩

/-- C5 counterexample: on the multi-byte character é the legacy compiler
advances the cursor by its byte count plus one (to index 4), not by one
index unit per code point (index 3), so the two cited compilers disagree
and byte arithmetic is visible in the emitted operations. -/
theorem C5_rune_indexing_cex :
    legacy.markdownToDocsRequests ("é\nx").data 1 ≠
      conversion.MarkdownToDocsRequests ("é\nx").data 1 ∧
    legacy.markdownToDocsRequests ("é\nx").data 1 =
      [docs.Request.insertText 1 ("é\n").data, docs.Request.insertText 4 ("x\n").data] := by
  exact ⟨by decide, by decide⟩

/-- Witness for C5: the plain-line equation at a concrete line. -/
theorem C5_rune_indexing_witness :
    conversion.compileLines [("hi").data] 1 =
      docs.Request.insertText 1
          ((conversion.parseInlineFormatting (trimSpace ("hi").data) 1).1 ++ ('\n' :: []))
        :: ((conversion.parseInlineFormatting (trimSpace ("hi").data) 1).2
          ++ conversion.compileLines []
              (1 + (((conversion.parseInlineFormatting (trimSpace ("hi").data) 1).1).length : Int)
                + 1)) :=
  C5_rune_indexing.1 ("hi").data [] 1 (by decide) (by decide)

/-- C6: FindSection scans the sections extracted by GetStructure in
document order and returns the first whose title is a case-insensitive
exact match of the requested name, none when no title matches — it is
exactly a first-match search with a case-folded equality predicate, never a
partial or fuzzy match.  In particular, with headings "Intro" (level 1) and
"intro details" (level 2), FindSection for "INTRO" returns the "Intro"
section. -/
theorem C6_findSection :
    (∀ (doc : docs.Document) (name : Str),
        document.FindSection doc name =
          (document.GetStructure doc).find? (fun sec => document.eqFold sec.Title name)) ∧
    document.FindSection introDoc ("INTRO").data =
      some { EndIndex := 8, Level := 1, StartIndex := 1, Title := ("Intro").data } := by
  refine ⟨?_, by decide⟩
  intro doc name
  exact findLoop_eq_find? name (document.GetStructure doc)

/-- C7 (amended): in the renderer, a non-heading paragraph whose rendered
text is entirely whitespace emits nothing, and otherwise emits its rendered
text followed by a blank line; but runs whose trimmed text is empty are NOT
skipped — every run contributes its rendered text verbatim to the
paragraph, as the whitespace-only run in the concrete paragraph shows (see
the counterexample for the refutation of the skipping claim). -/
theorem C7_paragraph_render :
    (∀ p : docs.Paragraph, trimSpace (conversion.paragraphContent p) = [] →
        conversion.formatParagraphAsMarkdown p = []) ∧
    (∀ p : docs.Paragraph, trimSpace (conversion.paragraphContent p) ≠ [] →
        conversion.formatParagraphAsMarkdown p =
          conversion.paragraphContent p ++ ('\n' :: '\n' :: [])) ∧
    conversion.formatParagraphAsMarkdown exPara2 = ("a  \n\n").data := by
  refine ⟨?_, ?_, by decide⟩
  · intro p h
    simp only [conversion.formatParagraphAsMarkdown]
    rw [if_neg (fun hcon => hcon h)]
  · intro p h
    simp only [conversion.formatParagraphAsMarkdown]
    rw [if_pos h]

/-- C7 counterexample: adding a run whose trimmed text is empty changes the
rendered paragraph (it contributes its whitespace), so such runs are not
skipped as the claim states. -/
theorem C7_paragraph_render_cex :
    conversion.formatParagraphAsMarkdown exPara2 ≠
      conversion.formatParagraphAsMarkdown exPara1 := by
  decide

/-- Witness for C7: the non-blank branch at a concrete paragraph. -/
theorem C7_paragraph_render_witness :
    conversion.formatParagraphAsMarkdown exPara1 =
      conversion.paragraphContent exPara1 ++ ('\n' :: '\n' :: []) :=
  C7_paragraph_render.2.1 exPara1 (by decide)

/-- C8: the rendered table has one pipe-delimited line per row with one
cell per column, with the header separator line inserted immediately after
row 0 whatever row 0 contains, and each row or separator line carries
exactly (number of cells) + 1 pipes when the cell texts are pipe-free; the
concrete 2 by 2 table renders as exactly 3 non-blank lines with 3 pipes
each. -/
theorem C8_table_shape :
    (∀ (t : docs.Table) (r0 : docs.TableRow) (rest : List docs.TableRow),
        t.tableRows = r0 :: rest →
        (∀ row ∈ t.tableRows, ∀ cell ∈ row.tableCells,
          '\n' ∉ conversion.getTableCellText cell) →
        splitOnChar '\n' (conversion.tableToMarkdown t) =
          conversion.rowLine r0 :: conversion.sepLine r0
            :: (rest.map conversion.rowLine ++ ([] :: [] :: []))) ∧
    (∀ row : docs.TableRow,
        (∀ cell ∈ row.tableCells, '|' ∉ conversion.getTableCellText cell) →
        List.count '|' (conversion.rowLine row) = row.tableCells.length + 1 ∧
        List.count '|' (conversion.sepLine row) = row.tableCells.length + 1) ∧
    conversion.tableToMarkdown exTable = ("| a | b |\n| --- | --- |\n| c | d |\n\n").data ∧
    (splitOnChar '\n' (conversion.tableToMarkdown exTable)).filter (fun l => !l.isEmpty) =
      [("| a | b |").data, ("| --- | --- |").data, ("| c | d |").data] ∧
    ((splitOnChar '\n' (conversion.tableToMarkdown exTable)).filter
        (fun l => !l.isEmpty)).all (fun l => List.count '|' l == 3) = true := by
  exact ⟨split_tableToMarkdown,
    fun row h => ⟨count_rowLine row h, count_sepLine row⟩,
    by decide, by decide, by decide⟩

/-- Witness for C8: the line decomposition applied to the concrete 2 by 2
table. -/
theorem C8_table_shape_witness :
    splitOnChar '\n' (conversion.tableToMarkdown exTable) =
      conversion.rowLine { tableCells := [mkCell "a", mkCell "b"] }
        :: conversion.sepLine { tableCells := [mkCell "a", mkCell "b"] }
        :: ([({ tableCells := [mkCell "c", mkCell "d"] } : docs.TableRow)].map
              conversion.rowLine ++ ([] :: [] :: [])) :=
  C8_table_shape.1 exTable { tableCells := [mkCell "a", mkCell "b"] }
    [{ tableCells := [mkCell "c", mkCell "d"] }] rfl (by decide)

/-- C9 (amended): ParseColor strips at most one leading hash and returns a
color exactly when the remaining byte length is 6, rejecting every other
length outright; but for a 6-byte remainder it always returns a color,
scanning hex digits Sscanf-style with components the scan never reaches
left at zero — so a length-6 input that is not fully hexadecimal yields a
color derived from a partial parse rather than a rejection (see the
counterexample). -/
theorem C9_parseColor :
    (∀ s : Str, (conversion.ParseColor s).isSome = true ↔
        byteLen (if s.take 1 = ('#' :: []) then s.drop 1 else s) = 6) ∧
    conversion.ParseColor ("12zzzz").data = some { Red := 18, Green := 0, Blue := 0 } ∧
    conversion.ParseColor ("zzzzzz").data = some { Red := 0, Green := 0, Blue := 0 } ∧
    conversion.ParseColor ("#A1B2C3").data = some { Red := 161, Green := 178, Blue := 195 } ∧
    conversion.ParseColor ("#12345").data = none ∧
    conversion.ParseColor ("1234567").data = none := by
  refine ⟨?_, by decide, by decide, by decide, by decide, by decide⟩
  intro s
  simp only [conversion.ParseColor]
  by_cases h : byteLen (if s.take 1 = ('#' :: []) then s.drop 1 else s) = 6
  · rw [if_pos h]
    exact iff_of_true rfl h
  · rw [if_neg h]
    exact iff_of_false (by simp) h

/-- C9 counterexample: "12zzzz" is not a hex string, yet ParseColor returns
a color for it (red component 18 scanned from "12", the unreached
components zero), contradicting that it never returns a color derived from
a partially parsed input. -/
theorem C9_parseColor_cex :
    (conversion.ParseColor ("12zzzz").data).isSome = true ∧
    (("12zzzz").data.all (fun ch => (conversion.hexVal ch).isSome)) = false := by
  exact ⟨by decide, by decide⟩

/-- C10: the compiler trims every input line before processing: compiling a
line is identical to compiling its trim (so surrounding whitespace never
reaches any InsertText), and a line whose trim is empty compiles exactly
like an empty line — one InsertText of a newline advancing the cursor by
one. -/
theorem C10_trim_lines :
    (∀ (l : Str) (ls : List Str) (c : Int),
        conversion.compileLines (l :: ls) c = conversion.compileLines (trimSpace l :: ls) c) ∧
    (∀ (l : Str) (ls : List Str) (c : Int), trimSpace l = [] →
        conversion.compileLines (l :: ls) c =
          docs.Request.insertText c ('\n' :: []) :: conversion.compileLines ls (c + 1)) := by
  constructor
  · intro l ls c
    simp only [conversion.compileLines, trim_trim]
  · intro l ls c h
    exact compileLines_blank l ls c h

/-- Witness for C10: a whitespace-only line compiles like an empty line. -/
theorem C10_trim_lines_witness :
    conversion.compileLines [("   ").data] 7 =
      docs.Request.insertText 7 ('\n' :: []) :: conversion.compileLines [] (7 + 1) :=
  C10_trim_lines.2 ("   ").data [] 7 (by decide)

end GDM
